import Mathlib

/-!
Verification of the subnet planner (`planner.go` of microsoft/IPSubnetPlanner).

The Go source is shallowly embedded: IPv4 addresses are `Nat` values below
`2 ^ 32`, and every arithmetic step that Go performs on `uint32` carries an
explicit `% 2 ^ 32`.  Dotted-quad rendering (`uint32ToIP`/`net.IP.String`) is a
bijection between `uint32` and display strings, so records store the numeric
addresses instead of the strings; likewise a CIDR string "a.b.c.d/p" is stored
as the pair (address value, prefix length), and the dotted-quad subnet mask
produced by `net.CIDRMask` is stored as its 32-bit value.  CIDR-string parsing
(`net.ParseCIDR`) is out of scope: a parent network arrives as an already
parsed (base address, prefix length) pair; the source's masking of the base
(`ipNet.IP.Mask(ipNet.Mask)`) is modelled explicitly by `maskAddr`.
-/

namespace IPSubnetPlanner

/-- Model of the Go struct `IPAssignment`: a display name together with a
signed position relative to the owning subnet. -/
structure IPAssignment where
  name : String
  position : Int
deriving Repr, DecidableEq

/-- Model of the Go struct `Subnet`: a subnet request.  `hosts` and `cidr`
are Go `int` fields that default to zero when absent from the input JSON. -/
structure Subnet where
  name : String := ""
  vlan : Int := 0
  hosts : Int := 0
  cidr : Int := 0
  ipAssignments : List IPAssignment := []
deriving Repr, DecidableEq

/-- Model of the Go struct `Network`.  The source stores the parent as a CIDR
string and parses it with `net.ParseCIDR`; here it arrives already parsed as a
base address (`base < 2 ^ 32`) and a prefix length (at most 32 for any string
`net.ParseCIDR` accepts).  String-level parse failures are outside the model. -/
structure Network where
  base : Nat
  prefixLen : Nat
  subnets : List Subnet
deriving Repr, DecidableEq

/-- The `IP` field of an output record: empty, a single dotted-quad address, or
a dash-joined inclusive range "lo - hi".  Addresses are kept numeric. -/
inductive IPField where
  | none
  | single (addr : Nat)
  | range (lo hi : Nat)
deriving Repr, DecidableEq

/-- Model of the Go struct `SubnetResult` restricted to the fields that
`planSingleNetwork` and its helpers actually set: `Subnet` (owning CIDR, kept
as an (address, prefix length) pair), `Name`, `VLAN`, `Label`, `IP`,
`TotalIPs`, `Prefix`, `Mask` (kept as the 32-bit mask value) and `Category`.
The remaining Go fields (`Network`, `Broadcast`, `FirstHost`, `LastHost`,
`UsableHosts`) are only written by `calculateSubnetDetails`, which is dead
code on the planning path modelled here. -/
structure SubnetResult where
  name : String := ""
  vlan : Int := 0
  subnet : Nat × Nat := (0, 0)
  prefixLen : Nat := 0
  label : String := ""
  ip : IPField := IPField.none
  mask : Nat := 0
  totalIPs : Nat := 0
  category : String := ""
deriving Repr, DecidableEq

/-- Model of the Go anonymous struct `subnetReq`: a request paired with its
resolved prefix length and block size. -/
structure SubnetReq where
  subnet : Subnet
  prefixLen : Nat
  size : Nat
deriving Repr, DecidableEq

instance {ε α : Type} [DecidableEq ε] [DecidableEq α] : DecidableEq (Except ε α) := fun a b =>
  match a, b with
  | .error x, .error y =>
    if h : x = y then .isTrue (by rw [h]) else .isFalse (fun c => h (Except.error.inj c))
  | .ok x, .ok y =>
    if h : x = y then .isTrue (by rw [h]) else .isFalse (fun c => h (Except.ok.inj c))
  | .error _, .ok _ => .isFalse (fun c => Except.noConfusion c)
  | .ok _, .error _ => .isFalse (fun c => Except.noConfusion c)

/-- Go's conversion `uint32(x)` of a (64-bit) `int` value: two's-complement
truncation, i.e. the representative of `x` modulo `2 ^ 32`. -/
def u32ofInt (x : Int) : Nat := (x % (2 ^ 32 : Int)).toNat

/-- `ipNet.IP.Mask(ipNet.Mask)` for prefix length `len`: clear the low
`32 - len` bits of `a`. -/
def maskAddr (a len : Nat) : Nat := a / 2 ^ (32 - len) * 2 ^ (32 - len)

/-- The 32-bit value of the dotted-quad mask `net.CIDRMask(len, 32)`. -/
def maskBits (len : Nat) : Nat := 2 ^ 32 - 2 ^ (32 - len)

/-- Fuel-driven search for the least `k` (starting from the given `k`) with
`n ≤ 2 ^ k`.  The fuel only drives structural termination: `clog2go n n 0`
always has enough fuel because `n < 2 ^ n`. -/
def clog2go : Nat → Nat → Nat → Nat
  | 0, _, k => k
  | fuel + 1, n, k => if 2 ^ k < n then clog2go fuel n (k + 1) else k

/-- Exact ceiling of the base-two logarithm: the least `k` with `n ≤ 2 ^ k`.
The source computes `int(math.Ceil(math.Log2(float64(n))))`; for every `n`
that can influence `calculatePrefixFromHosts` (those with ceiling at most 31,
i.e. `n ≤ 2 ^ 31`, where `float64` is exact and `math.Log2` is off by far less
than the distance to the nearest integer) the float computation agrees with
this exact value, and for larger `n` both produce a value of at least 32, which
the clamp below sends to 1 either way. -/
def ceilLog2 (n : Nat) : Nat := clog2go n n 0

/-- Model of `calculatePrefixFromHosts` (planner.go lines 104-116): need
`hosts + 2` addresses (network and broadcast included), take the ceiling
base-two logarithm, subtract from 32, and clamp into [1, 30] by the two
sequential `if` statements of the source. -/
def calculatePrefixFromHosts (hosts : Nat) : Nat :=
  let requiredIPs := hosts + 2
  let bits : Int := ceilLog2 requiredIPs
  let p0 : Int := 32 - bits
  let p1 : Int := if p0 < 1 then 1 else p0
  let p2 : Int := if p1 > 30 then 30 else p1
  p2.toNat

/-- The per-request validation of `planSingleNetwork` (lines 59-64): a resolved
prefix must lie in [parent prefix, 32]; a valid request records its block size
`2 ^ (32 - p)` (the Go `uint32(1 << (32 - prefix))`, which cannot wrap since
`p ≥ 1` on every reachable path). -/
def validateReq (parentPrefixLen : Nat) (s : Subnet) (p : Nat) : Except String SubnetReq :=
  if p < parentPrefixLen ∨ 32 < p then
    .error "request resolved to an invalid CIDR for the parent network"
  else
    .ok { subnet := s, prefixLen := p, size := 2 ^ (32 - p) }

/-- Resolution of one request (lines 50-64): an explicit positive `cidr` wins,
else a positive `hosts` count is converted, else the request is rejected. -/
def resolveOne (parentPrefixLen : Nat) (s : Subnet) : Except String SubnetReq :=
  if s.cidr > 0 then
    validateReq parentPrefixLen s s.cidr.toNat
  else if s.hosts > 0 then
    validateReq parentPrefixLen s (calculatePrefixFromHosts s.hosts.toNat)
  else
    .error "subnet must specify either hosts or cidr"

/-- The requirements-building loop of `planSingleNetwork` (lines 48-65),
stopping at the first failing request. -/
def resolveRequirements (parentPrefixLen : Nat) : List Subnet → Except String (List SubnetReq)
  | [] => .ok []
  | s :: rest =>
    match resolveOne parentPrefixLen s with
    | .error e => .error e
    | .ok r =>
      match resolveRequirements parentPrefixLen rest with
      | .error e => .error e
      | .ok rs => .ok (r :: rs)

/-- The order used by the allocator's sort (line 68-70): `a` may precede `b`
when `a`'s block size is at least `b`'s (the Go comparator is
`requirements[i].size > requirements[j].size`). -/
def sizeGE (a b : SubnetReq) : Prop := b.size ≤ a.size

instance : DecidableRel sizeGE := fun a b => inferInstanceAs (Decidable (b.size ≤ a.size))

instance : IsTotal SubnetReq sizeGE := ⟨fun a b => Nat.le_total b.size a.size⟩

instance : IsTrans SubnetReq sizeGE := ⟨fun _ _ _ hab hbc => Nat.le_trans hbc hab⟩

/-- Model of `sort.Slice(requirements, ...size > size)` (lines 68-70): a stable
sort by descending block size.  For at most 12 elements Go's sort is exactly
its insertion sort, which this equals; for longer slices `sort.Slice` still
orders by the comparator but does not guarantee the order of ties. -/
def sortBySizeDesc (l : List SubnetReq) : List SubnetReq := List.insertionSort sizeGE l

/-- The order used by the assignment sort (lines 198-200): ascending position
(Go comparator `Position < Position`). -/
def posLE (a b : IPAssignment) : Prop := a.position ≤ b.position

instance : DecidableRel posLE := fun a b => inferInstanceAs (Decidable (a.position ≤ b.position))

instance : IsTotal IPAssignment posLE := ⟨fun a b => Int.le_total a.position b.position⟩

instance : IsTrans IPAssignment posLE := ⟨fun _ _ _ hab hbc => Int.le_trans hab hbc⟩

/-- Model of `sort.Slice(subnet.IPAssignments, ...Position < Position)`
(lines 198-200), with the same stability caveat as `sortBySizeDesc`. -/
def sortAssignments (l : List IPAssignment) : List IPAssignment := List.insertionSort posLE l

/-- Position resolution of `processIPAssignments` (lines 204-224).  All
additions and the `uint32` casts of `totalIPs` and `position` are mod
`2 ^ 32`; Go's `x - 1` on `uint32` is `+ (2 ^ 32 - 1)` mod `2 ^ 32`. -/
def resolveAssignPos (networkInt totalIPs p : Nat) (position : Int) : Nat :=
  if position < 0 then
    if p = 32 then networkInt
    else if p = 31 then (networkInt + totalIPs % 2 ^ 32 + u32ofInt position) % 2 ^ 32
    else (networkInt + totalIPs % 2 ^ 32 + (2 ^ 32 - 1) + u32ofInt position) % 2 ^ 32
  else if position = 0 then networkInt
  else (networkInt + u32ofInt position) % 2 ^ 32

/-- The second, duplicated position resolution used to mark used addresses
(lines 251-265).  It lacks the `p = 32` special case of `resolveAssignPos`;
the difference is unobservable because this code only runs when `p < 31`. -/
def usedAssignInt (networkInt totalIPs p : Nat) (position : Int) : Nat :=
  if position < 0 then
    if p = 31 then (networkInt + totalIPs % 2 ^ 32 + u32ofInt position) % 2 ^ 32
    else (networkInt + totalIPs % 2 ^ 32 + (2 ^ 32 - 1) + u32ofInt position) % 2 ^ 32
  else if position = 0 then networkInt
  else (networkInt + u32ofInt position) % 2 ^ 32

/-- `broadcastInt := networkInt + uint32(totalIPs) - 1` (line 269), in
`uint32` arithmetic. -/
def broadcastInt (networkInt totalIPs : Nat) : Nat :=
  (networkInt + totalIPs % 2 ^ 32 + (2 ^ 32 - 1)) % 2 ^ 32

/-- The "Network" record emitted first for a subnet (lines 185-195 and
446-456). -/
def networkRecord (s : Subnet) (cp : Nat × Nat) (networkInt : Nat) : SubnetResult :=
  { subnet := cp, name := s.name, vlan := s.vlan, label := "Network",
    ip := IPField.single networkInt, totalIPs := 1, prefixLen := cp.2,
    mask := maskBits cp.2, category := "Network" }

/-- One "Assignment" record (lines 228-239). -/
def mkAssignmentRecord (s : Subnet) (cp : Nat × Nat) (networkInt totalIPs : Nat)
    (a : IPAssignment) : SubnetResult :=
  { subnet := cp, name := s.name, vlan := s.vlan, label := a.name,
    ip := IPField.single (resolveAssignPos networkInt totalIPs cp.2 a.position),
    totalIPs := 1, prefixLen := cp.2, mask := maskBits cp.2, category := "Assignment" }

/-- Model of `addUnusedRange` (lines 313-343): one "Unused"/"Unused Range"
record for the inclusive offset range [first, last] inside the subnet. -/
def unusedRangeRecord (s : Subnet) (cp : Nat × Nat) (networkInt first last : Nat) : SubnetResult :=
  let count := last - first + 1
  { subnet := cp, name := s.name, vlan := s.vlan,
    label := if count = 1 then "Unused" else "Unused Range",
    ip := if count = 1 then IPField.single ((networkInt + first) % 2 ^ 32)
          else IPField.range ((networkInt + first) % 2 ^ 32) ((networkInt + last) % 2 ^ 32),
    totalIPs := count, prefixLen := cp.2, mask := maskBits cp.2, category := "Unused" }

/-- The "Broadcast" record (lines 297-307 and 486-497). -/
def broadcastRecord (s : Subnet) (cp : Nat × Nat) (addr : Nat) : SubnetResult :=
  { subnet := cp, name := s.name, vlan := s.vlan, label := "Broadcast",
    ip := IPField.single addr, totalIPs := 1, prefixLen := cp.2,
    mask := maskBits cp.2, category := "Broadcast" }

/-- One iteration of the gap scan of `processIPAssignments` (lines 276-289):
the state carries the records emitted so far and the start of the currently
open unused run, if any. -/
def scanStep (s : Subnet) (cp : Nat × Nat) (networkInt : Nat) (used : Nat → Bool)
    (st : List SubnetResult × Option Nat) (i : Nat) : List SubnetResult × Option Nat :=
  if ! used ((networkInt + i) % 2 ^ 32) then
    match st.2 with
    | some _ => st
    | none => (st.1, some i)
  else
    match st.2 with
    | some first => (st.1 ++ [unusedRangeRecord s cp networkInt first (i - 1)], none)
    | none => st

/-- The gap scan of `processIPAssignments` (lines 274-294): walk the host
offsets 1 .. totalIPs-2 left to right, open a run at the first unused offset,
close it (emitting an `unusedRangeRecord`) at the next used one, and flush a
run left open at the end. -/
def scanUnused (s : Subnet) (cp : Nat × Nat) (networkInt totalIPs : Nat)
    (used : Nat → Bool) : List SubnetResult :=
  let final := (List.range' 1 (totalIPs - 2)).foldl (scanStep s cp networkInt used) ([], none)
  match final.2 with
  | some first => final.1 ++ [unusedRangeRecord s cp networkInt first (totalIPs - 2)]
  | none => final.1

/-- The `prefix < 31` tail of `processIPAssignments` (lines 242-308): mark the
network address, every assignment's resolved address and the broadcast address
as used, emit the unused runs, then the "Broadcast" record.  The source scans
`subnet.IPAssignments` after having sorted it in place, hence the sorted list
here; the used-address set is unaffected by order. -/
def unusedAndBroadcastRecords (s : Subnet) (cp : Nat × Nat) (networkInt totalIPs : Nat)
    (sorted : List IPAssignment) : List SubnetResult :=
  let bcast := broadcastInt networkInt totalIPs
  let used : Nat → Bool := fun ip =>
    ip = networkInt
      || sorted.any (fun a => usedAssignInt networkInt totalIPs cp.2 a.position = ip)
      || ip = bcast
  scanUnused s cp networkInt totalIPs used ++ [broadcastRecord s cp bcast]

/-- Model of `processIPAssignments` (lines 171-311).  `cp` is the subnet CIDR
(raw base address and prefix length); the base is re-masked as the source does
via `ParseCIDR` + `Mask`.  The `assignedPositions` map of the source is never
read and is omitted. -/
def processIPAssignments (s : Subnet) (cp : Nat × Nat) : List SubnetResult :=
  let p := cp.2
  let networkInt := maskAddr cp.1 p
  let totalIPs := 2 ^ (32 - p)
  let sorted := sortAssignments s.ipAssignments
  let asgRecs := sorted.map (mkAssignmentRecord s cp networkInt totalIPs)
  let tailRecs :=
    if p < 31 then unusedAndBroadcastRecords s cp networkInt totalIPs sorted else []
  networkRecord s cp networkInt :: (asgRecs ++ tailRecs)

/-- Model of `createBasicSubnetEntries` (lines 434-530): the records for a
subnet without IP assignments. -/
def createBasicSubnetEntries (s : Subnet) (cp : Nat × Nat) : List SubnetResult :=
  let p := cp.2
  let networkInt := maskAddr cp.1 p
  let totalIPs := 2 ^ (32 - p)
  let netRec := networkRecord s cp networkInt
  if p < 31 then
    let usableCount := totalIPs - 2
    let firstUsable := (networkInt + 1) % 2 ^ 32
    let lastUsable := (networkInt + totalIPs % 2 ^ 32 + (2 ^ 32 - 2)) % 2 ^ 32
    let availRec : SubnetResult :=
      { subnet := cp, name := s.name, vlan := s.vlan,
        label := if usableCount = 1 then "Available" else "Available Range",
        ip := if usableCount = 1 then IPField.single firstUsable
              else IPField.range firstUsable lastUsable,
        totalIPs := usableCount, prefixLen := p, mask := maskBits p,
        category := "Available" }
    [netRec, availRec,
     broadcastRecord s cp ((networkInt + totalIPs % 2 ^ 32 + (2 ^ 32 - 1)) % 2 ^ 32)]
  else if p = 31 then
    [netRec,
     { subnet := cp, name := s.name, vlan := s.vlan, label := "Available Range",
       ip := IPField.range networkInt ((networkInt + 1) % 2 ^ 32), totalIPs := 2,
       prefixLen := p, mask := maskBits p, category := "Available" }]
  else
    [netRec,
     { subnet := cp, name := s.name, vlan := s.vlan, label := "Available",
       ip := IPField.single networkInt, totalIPs := 1,
       prefixLen := p, mask := maskBits p, category := "Available" }]

/-- The allocation loop of `planSingleNetwork` (lines 72-91): place each sorted
requirement at the cursor, expand it into records, and advance the cursor by
the block size in `uint32` arithmetic.  Returns the records and the final
cursor. -/
def allocateAll : List SubnetReq → Nat → List SubnetResult × Nat
  | [], currentIP => ([], currentIP)
  | req :: rest, currentIP =>
    let recs :=
      if req.subnet.ipAssignments.isEmpty then
        createBasicSubnetEntries req.subnet (currentIP, req.prefixLen)
      else
        processIPAssignments req.subnet (currentIP, req.prefixLen)
    let next := allocateAll rest ((currentIP + req.size) % 2 ^ 32)
    (recs ++ next.1, next.2)

/-- The (base, size) interval each requirement receives from the allocation
walk of `allocateAll`, with the record construction dropped. -/
def placements : List SubnetReq → Nat → List (Nat × Nat)
  | [], _ => []
  | req :: rest, currentIP => (currentIP, req.size) :: placements rest ((currentIP + req.size) % 2 ^ 32)

/-- The cursor value after the allocation walk. -/
def placeCursor : List SubnetReq → Nat → Nat
  | [], currentIP => currentIP
  | req :: rest, currentIP => placeCursor rest ((currentIP + req.size) % 2 ^ 32)

/-- The block-growing loop of `calculateAvailableSpace` (lines 354-364): keep
doubling while the doubled block still fits in the remaining range and the
cursor stays aligned to it.  All quantities are `uint32`, so the doubled
candidate is `2 * blockSize % 2 ^ 32`: once the block size reaches `2 ^ 31`
the doubled value wraps to 0, the fit test `0 <= maxBlockSize` is vacuously
true, and the alignment test `current % 0` is a division by zero — Go panics
at run time, modelled as `none`.  (Go's `&&` short-circuits, so the modulo is
only evaluated when the fit test passed.)  The outer `blockSize <=
maxBlockSize && current % blockSize == 0` guard of the source holds on entry
(block size 1) and is re-established whenever the doubling succeeds, so only
the inner test is modelled.  The fuel only drives structural termination: the
block size at least doubles each step, so `maxBlockSize` iterations always
suffice. -/
def growGo : Nat → Nat → Nat → Nat → Option Nat
  | 0, _, _, blockSize => some blockSize
  | fuel + 1, current, maxBlockSize, blockSize =>
    let doubled := 2 * blockSize % 2 ^ 32
    if doubled ≤ maxBlockSize then
      if doubled = 0 then none
      else if current % doubled = 0 then growGo fuel current maxBlockSize doubled
      else some blockSize
    else some blockSize

/-- The block size chosen at a cursor position, starting the doubling at 1;
`none` when the source would panic on `current % 0`. -/
def growBlock (current maxBlockSize : Nat) : Option Nat :=
  growGo maxBlockSize current maxBlockSize 1

/-- One "Available"/"Available Range" record of `calculateAvailableSpace`
(lines 366-414) for the block at `blk.1` of size `blk.2`.  The block size is
always a power of two (see `growGo_pow2`), on which `int(math.Log2(float64 x))`
is exactly the exponent, i.e. `ceilLog2 x`; the source's `if prefix > 32`
clamp and its `if usableCount < 0` floor (subsumed here by truncated
subtraction) are unreachable. -/
def mkAvailableRecord (blk : Nat × Nat) : SubnetResult :=
  let current := blk.1
  let blockSize := blk.2
  let p := 32 - ceilLog2 blockSize
  let usableCount := if p < 31 then blockSize - 2 else blockSize
  { subnet := (current, p), name := "Available", vlan := 0,
    label := if blockSize = 1 then "Available" else "Available Range",
    ip := if blockSize = 1 then IPField.single current
          else if p < 31 then IPField.range (current + 1) (current + blockSize - 2)
          else IPField.range current (current + blockSize - 1),
    totalIPs := usableCount, prefixLen := p, mask := maskBits p,
    category := "Available" }

/-- The (base, size) blocks the partitioner walks through; `none` when some
iteration panics in the block-growing loop (which happens exactly when the
cursor is 0 and at least `2 ^ 31` addresses remain, see `growGo`).  The fuel
only drives structural termination: each step consumes at least one address,
so `e - current` iterations always suffice. -/
def availGo : Nat → Nat → Nat → Option (List (Nat × Nat))
  | 0, _, _ => some []
  | fuel + 1, current, e =>
    if current < e then
      match growBlock current (e - current) with
      | none => none
      | some blockSize =>
        match availGo fuel (current + blockSize) e with
        | none => none
        | some rest => some ((current, blockSize) :: rest)
    else some []

/-- The partitioner's block decomposition of `[start, e)`, `none` on panic. -/
def availBlocks (start e : Nat) : Option (List (Nat × Nat)) := availGo (e - start) start e

/-- The record-building loop of `calculateAvailableSpace`, with the same fuel
pattern as `availGo`. -/
def calcGo : Nat → Nat → Nat → Option (List SubnetResult)
  | 0, _, _ => some []
  | fuel + 1, current, e =>
    if current < e then
      match growBlock current (e - current) with
      | none => none
      | some blockSize =>
        match calcGo fuel (current + blockSize) e with
        | none => none
        | some rest => some (mkAvailableRecord (current, blockSize) :: rest)
    else some []

/-- Model of `calculateAvailableSpace` (lines 345-420); `none` models the
run-time panic of the block-growing loop.  The `parentPrefixLen` parameter is
part of the Go signature but unused by its body. -/
def calculateAvailableSpace (start e : Nat) (_parentPrefixLen : Nat) : Option (List SubnetResult) :=
  calcGo (e - start) start e

/-- Model of `planSingleNetwork` (lines 26-102) after CIDR parsing: resolve
the requests, sort by descending size, allocate left to right from the masked
parent base, and, when the cursor is still short of the parent end (all in
`uint32` arithmetic: `uint32(1 << (32 - parentPrefix))` wraps to 0 when the
parent prefix is 0, and `networkInt + parentSize` wraps to 0 when the parent
abuts the top of the address space), append the partitioner's records.  When
the partitioner panics (see `growGo`) the Go process aborts with the runtime
message below instead of returning; since the function then never produces a
result, the abort is modelled as a distinguished failure value — no theorem
below identifies it with an ordinary returned error, they only ever assert
normal completion. -/
def planSingleNetwork (network : Network) : Except String (List SubnetResult) :=
  let parentPrefixLen := network.prefixLen
  let networkInt := maskAddr network.base parentPrefixLen
  match resolveRequirements parentPrefixLen network.subnets with
  | .error e => .error e
  | .ok requirements =>
    let sorted := sortBySizeDesc requirements
    let alloc := allocateAll sorted networkInt
    let parentSize := 2 ^ (32 - parentPrefixLen) % 2 ^ 32
    let parentEnd := (networkInt + parentSize) % 2 ^ 32
    if alloc.2 < parentEnd then
      match calculateAvailableSpace alloc.2 parentEnd parentPrefixLen with
      | none => .error "panic: runtime error: integer divide by zero"
      | some available => .ok (alloc.1 ++ available)
    else
      .ok alloc.1

/-- A resolved requirement with its subnet's IP assignments removed; the
image of a `SubnetReq` under `stripAssignments` of its network. -/
def stripReq (r : SubnetReq) : SubnetReq :=
  { r with subnet := { r.subnet with ipAssignments := [] } }

/-- `network` with every subnet's IP assignments removed. -/
def stripAssignments (n : Network) : Network :=
  { n with subnets := n.subnets.map (fun s => { s with ipAssignments := [] }) }

/-- The blocks `blocks` lie consecutively: each starts where the previous one
ended, beginning at `lo` and ending exactly at `hi`, with positive sizes. -/
def blocksChain : Nat → List (Nat × Nat) → Nat → Prop
  | lo, [], hi => lo = hi
  | lo, blk :: rest, hi => blk.1 = lo ∧ 0 < blk.2 ∧ blocksChain (lo + blk.2) rest hi

/-- The address intervals `[blk.1, blk.1 + blk.2)` of `blocks` exactly tile
`[lo, hi)`: together they cover precisely that interval, and no two overlap. -/
def tiles (lo hi : Nat) (blocks : List (Nat × Nat)) : Prop :=
  (∀ x, (lo ≤ x ∧ x < hi) ↔ ∃ blk ∈ blocks, blk.1 ≤ x ∧ x < blk.1 + blk.2) ∧
  blocks.Pairwise (fun p q => p.1 + p.2 ≤ q.1 ∨ q.1 + q.2 ≤ p.1)

/-! ### Lemmas about `ceilLog2` -/

theorem clog2go_spec (fuel : Nat) : ∀ n k : Nat, n ≤ 2 ^ (k + fuel) →
    n ≤ 2 ^ clog2go fuel n k ∧ (clog2go fuel n k = k ∨ 2 ^ (clog2go fuel n k - 1) < n) ∧
    k ≤ clog2go fuel n k := by
  induction fuel with
  | zero =>
    intro n k hfit
    simpa [clog2go] using hfit
  | succ fuel ih =>
    intro n k hfit
    rw [clog2go]
    by_cases hlt : 2 ^ k < n
    · simp only [if_pos hlt]
      have hfit' : n ≤ 2 ^ (k + 1 + fuel) := by
        have : k + 1 + fuel = k + (fuel + 1) := by omega
        rw [this]; exact hfit
      obtain ⟨h1, h2, h3⟩ := ih n (k + 1) hfit'
      refine ⟨h1, Or.inr ?_, by omega⟩
      rcases h2 with h2 | h2
      · rw [h2]; simpa using hlt
      · exact h2
    · simp only [if_neg hlt]
      exact ⟨by omega, Or.inl (by trivial), Nat.le_refl k⟩

theorem ceilLog2_le (n : Nat) : n ≤ 2 ^ ceilLog2 n :=
  (clog2go_spec n n 0 (by simpa using Nat.le_of_lt (Nat.lt_two_pow n))).1

theorem ceilLog2_min (n : Nat) : ceilLog2 n = 0 ∨ 2 ^ (ceilLog2 n - 1) < n :=
  (clog2go_spec n n 0 (by simpa using Nat.le_of_lt (Nat.lt_two_pow n))).2.1

theorem ceilLog2_two_le {n : Nat} (hn : 3 ≤ n) : 2 ≤ ceilLog2 n := by
  by_contra hc
  have h1 : ceilLog2 n ≤ 1 := by omega
  have h2 : n ≤ 2 ^ ceilLog2 n := ceilLog2_le n
  have h3 : (2 : Nat) ^ ceilLog2 n ≤ 2 ^ 1 := Nat.pow_le_pow_right (by omega) h1
  omega

theorem ceilLog2_pred_lt {n : Nat} (hn : 3 ≤ n) : 2 ^ (ceilLog2 n - 1) < n := by
  rcases ceilLog2_min n with h | h
  · have := ceilLog2_two_le hn; omega
  · exact h

theorem calculatePrefixFromHosts_eq (h : Nat) (hpos : 1 ≤ h) :
    calculatePrefixFromHosts h =
      if ceilLog2 (h + 2) ≤ 31 then 32 - ceilLog2 (h + 2) else 1 := by
  have hc2 : 2 ≤ ceilLog2 (h + 2) := ceilLog2_two_le (by omega)
  unfold calculatePrefixFromHosts
  dsimp only
  split_ifs <;> omega

/-- C3: for every host count `h > 0` the derived prefix length is
`32 - ceilLog2 (h + 2)` clamped into [1, 30]; whenever the unclamped value
already lies in [1, 30] (equivalently `ceilLog2 (h + 2) ≤ 31`) it is the
largest prefix length whose block holds `h + 2` addresses: the block of the
result fits `h + 2`, and every strictly larger (more specific) prefix length
yields a block that is too small.  In particular the result always lies in
[1, 30], so a prefix length of 31 or 32 is never derived from a host count. -/
theorem hostsPrefixLen_minimal (h : Nat) (hpos : 1 ≤ h) :
    (1 ≤ calculatePrefixFromHosts h ∧ calculatePrefixFromHosts h ≤ 30) ∧
    ((calculatePrefixFromHosts h : Int) = max 1 (min 30 (32 - (ceilLog2 (h + 2) : Int)))) ∧
    (ceilLog2 (h + 2) ≤ 31 →
      h + 2 ≤ 2 ^ (32 - calculatePrefixFromHosts h) ∧
      ∀ q, calculatePrefixFromHosts h < q → 2 ^ (32 - q) < h + 2) := by
  have hc2 : 2 ≤ ceilLog2 (h + 2) := ceilLog2_two_le (by omega)
  have hle : h + 2 ≤ 2 ^ ceilLog2 (h + 2) := ceilLog2_le _
  have hlt : 2 ^ (ceilLog2 (h + 2) - 1) < h + 2 := ceilLog2_pred_lt (by omega)
  have hval := calculatePrefixFromHosts_eq h hpos
  refine ⟨?_, ?_, ?_⟩
  · rw [hval]; split_ifs <;> omega
  · rw [hval]; split_ifs with h1 <;> omega
  · intro hc31
    constructor
    · rw [hval, if_pos hc31]
      have heq : 32 - (32 - ceilLog2 (h + 2)) = ceilLog2 (h + 2) := by omega
      rw [heq]; exact hle
    · intro q hq
      rw [hval, if_pos hc31] at hq
      by_cases h32 : 32 ≤ q
      · have heq : 32 - q = 0 := by omega
        have hone : (2 : Nat) ^ 0 = 1 := rfl
        rw [heq, hone]; omega
      · have hstep : 32 - q ≤ ceilLog2 (h + 2) - 1 := by omega
        calc 2 ^ (32 - q) ≤ 2 ^ (ceilLog2 (h + 2) - 1) :=
              Nat.pow_le_pow_right (by omega) hstep
          _ < h + 2 := hlt

/-! ### Lemmas about the free-space partitioner -/

theorem growGo_facts (current maxB : Nat) :
    ∀ fuel b r, 0 < b → b ≤ maxB → current % b = 0 → (∃ k, b = 2 ^ k) →
      maxB < b * 2 ^ fuel → growGo fuel current maxB b = some r →
      b ≤ r ∧ r ≤ maxB ∧ current % r = 0 ∧ (∃ k, r = 2 ^ k) ∧
      (maxB < 2 * r ∨ current % (2 * r) ≠ 0) := by
  intro fuel
  induction fuel with
  | zero =>
    intro b r hb hle hal hpow hfit h
    simp at hfit
    omega
  | succ fuel ih =>
    intro b r hb hle hal hpow hfit h
    rw [growGo] at h
    obtain ⟨k, hk⟩ := hpow
    by_cases hd : 2 * b % 2 ^ 32 ≤ maxB
    · rw [if_pos hd] at h
      by_cases hz : 2 * b % 2 ^ 32 = 0
      · rw [if_pos hz] at h
        exact absurd h (by simp)
      · rw [if_neg hz] at h
        have hk31 : k ≤ 30 := by
          by_contra hk31
          apply hz
          have h2b : 2 * b = 2 ^ (k + 1) := by rw [hk]; ring
          rw [h2b]
          exact Nat.mod_eq_zero_of_dvd (Nat.pow_dvd_pow 2 (by omega))
        have hdb : 2 * b % 2 ^ 32 = 2 * b := by
          apply Nat.mod_eq_of_lt
          rw [hk, show (2 : Nat) * 2 ^ k = 2 ^ (k + 1) by ring]
          exact (Nat.pow_lt_pow_iff_right (by omega)).mpr (by omega)
        rw [hdb] at h hd
        by_cases hm : current % (2 * b) = 0
        · rw [if_pos hm] at h
          have hrec := ih (2 * b) r (by omega) hd hm ⟨k + 1, by rw [hk]; ring⟩
            (by rw [show (2 : Nat) * b * 2 ^ fuel = b * 2 ^ (fuel + 1) by ring]; exact hfit) h
          obtain ⟨h1, h2, h3, h4, h5⟩ := hrec
          exact ⟨by omega, h2, h3, h4, h5⟩
        · rw [if_neg hm] at h
          injection h with h'
          subst h'
          exact ⟨Nat.le_refl b, hle, hal, ⟨k, hk⟩, Or.inr hm⟩
    · rw [if_neg hd] at h
      injection h with h'
      subst h'
      refine ⟨Nat.le_refl b, hle, hal, ⟨k, hk⟩, Or.inl ?_⟩
      have := Nat.mod_le (2 * b) (2 ^ 32)
      omega

theorem growGo_none (current maxB : Nat) :
    ∀ fuel b, 0 < b → b ≤ maxB → current % b = 0 →
      growGo fuel current maxB b = none → 2 ^ 31 ≤ maxB ∧ current % 2 ^ 31 = 0 := by
  intro fuel
  induction fuel with
  | zero => intro b _ _ _ h; exact absurd h (by simp [growGo])
  | succ fuel ih =>
    intro b hb hle hal h
    rw [growGo] at h
    by_cases hd : 2 * b % 2 ^ 32 ≤ maxB
    · rw [if_pos hd] at h
      by_cases hz : 2 * b % 2 ^ 32 = 0
      · have hdvd : 2 ^ 31 ∣ b := by
          have h32 : (2 ^ 32 : Nat) ∣ 2 * b := Nat.dvd_of_mod_eq_zero hz
          have h2 : (2 : Nat) * 2 ^ 31 ∣ 2 * b := by
            rw [show (2 : Nat) * 2 ^ 31 = 2 ^ 32 by ring]
            exact h32
          exact (mul_dvd_mul_iff_left (by omega : (2 : Nat) ≠ 0)).mp h2
        constructor
        · exact Nat.le_trans (Nat.le_of_dvd hb hdvd) hle
        · exact Nat.mod_eq_zero_of_dvd (hdvd.trans (Nat.dvd_of_mod_eq_zero hal))
      · rw [if_neg hz] at h
        by_cases hm : current % (2 * b % 2 ^ 32) = 0
        · rw [if_pos hm] at h
          exact ih _ (by omega) hd hm h
        · rw [if_neg hm] at h
          exact absurd h (by simp)
    · rw [if_neg hd] at h
      exact absurd h (by simp)

theorem growBlock_facts (current maxB r : Nat) (hmax : 1 ≤ maxB)
    (h : growBlock current maxB = some r) :
    1 ≤ r ∧ r ≤ maxB ∧ current % r = 0 ∧ (∃ k, r = 2 ^ k) ∧
    (maxB < 2 * r ∨ current % (2 * r) ≠ 0) :=
  growGo_facts current maxB maxB 1 r (by omega) hmax (Nat.mod_one current)
    ⟨0, rfl⟩ (by simpa using Nat.lt_two_pow maxB) h

theorem growBlock_some (current maxB : Nat) (hmax : 1 ≤ maxB)
    (hsafe : ¬(2 ^ 31 ≤ maxB ∧ current % 2 ^ 31 = 0)) :
    ∃ r, growBlock current maxB = some r := by
  cases h : growBlock current maxB with
  | none =>
    exact absurd (growGo_none current maxB maxB 1 (by omega) hmax (Nat.mod_one current) h) hsafe
  | some r => exact ⟨r, rfl⟩

theorem growBlock_max (current maxB r : Nat) (hmax : 1 ≤ maxB)
    (h : growBlock current maxB = some r) :
    ∀ m k, m = 2 ^ k → m ≤ maxB → current % m = 0 → m ≤ r := by
  intro m k hm hle hal
  by_contra hgt
  obtain ⟨h1, h2, h3, ⟨j, hj⟩, hbreak⟩ := growBlock_facts current maxB r hmax h
  have hjk : j < k := by
    have hlt : 2 ^ j < 2 ^ k := by rw [← hj, ← hm]; omega
    exact (Nat.pow_lt_pow_iff_right (by omega)).mp hlt
  have hdvd : 2 * r ∣ m := by
    rw [hj, hm, show (2 : Nat) * 2 ^ j = 2 ^ (j + 1) by ring]
    exact Nat.pow_dvd_pow 2 (by omega)
  have hmpos : 0 < m := by rw [hm]; positivity
  rcases hbreak with hb | hb
  · exact absurd (Nat.le_trans (Nat.le_of_dvd hmpos hdvd) hle) (by omega)
  · exact hb (Nat.mod_eq_zero_of_dvd (hdvd.trans (Nat.dvd_of_mod_eq_zero hal)))

theorem availGo_chain : ∀ fuel s e, s ≤ e → e - s ≤ fuel → e < 2 ^ 32 →
    ¬(s = 0 ∧ 2 ^ 31 ≤ e) →
    ∃ blocks, availGo fuel s e = some blocks ∧ blocksChain s blocks e := by
  intro fuel
  induction fuel with
  | zero =>
    intro s e h1 h2 _ _
    have hse : s = e := by omega
    exact ⟨[], rfl, by simpa [blocksChain] using hse⟩
  | succ fuel ih =>
    intro s e h1 h2 he hsafe
    rw [availGo]
    by_cases hlt : s < e
    · rw [if_pos hlt]
      have hsafe' : ¬(2 ^ 31 ≤ e - s ∧ s % 2 ^ 31 = 0) := by
        intro hcp
        rcases Nat.eq_zero_or_pos s with hs0 | hspos
        · exact hsafe ⟨hs0, by omega⟩
        · have hsge : 2 ^ 31 ≤ s := Nat.le_of_dvd hspos (Nat.dvd_of_mod_eq_zero hcp.2)
          omega
      obtain ⟨r, hr⟩ := growBlock_some s (e - s) (by omega) hsafe'
      obtain ⟨hr1, hr2, -, -, -⟩ := growBlock_facts s (e - s) r (by omega) hr
      obtain ⟨rest, hrest, hchain⟩ := ih (s + r) e (by omega) (by omega) he
        (by intro hcp; omega)
      refine ⟨(s, r) :: rest, ?_, rfl, hr1, hchain⟩
      simp only [hr, hrest]
    · rw [if_neg hlt]
      have hse : s = e := by omega
      exact ⟨[], rfl, by simpa [blocksChain] using hse⟩

theorem availGo_blocks : ∀ fuel current e blocks, availGo fuel current e = some blocks →
    ∀ blk ∈ blocks, (∃ j, blk.2 = 2 ^ j) ∧ blk.1 % blk.2 = 0 ∧
      ∀ m k, m = 2 ^ k → m ≤ e - blk.1 → blk.1 % m = 0 → m ≤ blk.2 := by
  intro fuel
  induction fuel with
  | zero =>
    intro current e blocks h blk hm
    rw [availGo] at h
    injection h with h'
    subst h'
    simp at hm
  | succ fuel ih =>
    intro current e blocks h blk hm
    rw [availGo] at h
    split_ifs at h with hlt
    · cases hg : growBlock current (e - current) with
      | none => simp only [hg] at h; exact absurd h (by simp)
      | some bs =>
        simp only [hg] at h
        cases ha : availGo fuel (current + bs) e with
        | none => simp only [ha] at h; exact absurd h (by simp)
        | some rest =>
          simp only [ha] at h
          injection h with h'
          subst h'
          rcases List.mem_cons.mp hm with he | htl
          · subst he
            obtain ⟨hb1, hb2, hb3, hb4, -⟩ :=
              growBlock_facts current (e - current) bs (by omega) hg
            exact ⟨hb4, hb3, growBlock_max current (e - current) bs (by omega) hg⟩
          · exact ih _ e rest ha blk htl
    · injection h with h'
      subst h'
      simp at hm

/-! ### Lemmas about block chains and tiling -/

theorem blocksChain_le : ∀ (blocks : List (Nat × Nat)) (lo hi : Nat),
    blocksChain lo blocks hi → lo ≤ hi := by
  intro blocks
  induction blocks with
  | nil => intro lo hi h; simp [blocksChain] at h; omega
  | cons blk rest ih =>
    intro lo hi h
    obtain ⟨-, hpos, hrest⟩ := h
    have := ih (lo + blk.2) hi hrest
    omega

theorem blocksChain_mem : ∀ (blocks : List (Nat × Nat)) (lo hi : Nat) (blk : Nat × Nat),
    blocksChain lo blocks hi → blk ∈ blocks → lo ≤ blk.1 ∧ blk.1 + blk.2 ≤ hi := by
  intro blocks
  induction blocks with
  | nil => intro lo hi blk _ hm; simp at hm
  | cons hd rest ih =>
    intro lo hi blk hc hm
    obtain ⟨hhd, hpos, hrest⟩ := hc
    rcases List.mem_cons.mp hm with he | htl
    · subst he
      have := blocksChain_le rest (lo + blk.2) hi (hhd ▸ hrest)
      omega
    · have := ih (lo + hd.2) hi blk hrest htl
      omega

theorem blocksChain_append : ∀ (l1 l2 : List (Nat × Nat)) (lo mid hi : Nat),
    blocksChain lo l1 mid → blocksChain mid l2 hi → blocksChain lo (l1 ++ l2) hi := by
  intro l1
  induction l1 with
  | nil =>
    intro l2 lo mid hi h1 h2
    simp [blocksChain] at h1
    simpa [h1] using h2
  | cons hd rest ih =>
    intro l2 lo mid hi h1 h2
    obtain ⟨hhd, hpos, hrest⟩ := h1
    exact ⟨hhd, hpos, ih l2 (lo + hd.2) mid hi hrest h2⟩

theorem blocksChain_tiles : ∀ (blocks : List (Nat × Nat)) (lo hi : Nat),
    blocksChain lo blocks hi → tiles lo hi blocks := by
  intro blocks
  induction blocks with
  | nil =>
    intro lo hi h
    simp [blocksChain] at h
    subst h
    constructor
    · intro x
      constructor
      · intro hx; omega
      · intro hx; simp at hx
    · simp
  | cons hd rest ih =>
    intro lo hi h
    obtain ⟨hhd, hpos, hrest⟩ := h
    obtain ⟨ihcov, ihpw⟩ := ih (lo + hd.2) hi hrest
    have hmidhi : lo + hd.2 ≤ hi := blocksChain_le rest (lo + hd.2) hi hrest
    constructor
    · intro x
      constructor
      · intro hx
        by_cases hin : x < lo + hd.2
        · exact ⟨hd, List.mem_cons_self hd rest, by omega⟩
        · obtain ⟨blk, hm, hb⟩ := (ihcov x).mp (by omega)
          exact ⟨blk, List.mem_cons_of_mem hd hm, hb⟩
      · intro hx
        obtain ⟨blk, hm, hb⟩ := hx
        rcases List.mem_cons.mp hm with he | htl
        · subst he; omega
        · have := blocksChain_mem rest (lo + hd.2) hi blk hrest htl
          omega
    · refine List.Pairwise.cons ?_ ihpw
      intro blk hm
      have := blocksChain_mem rest (lo + hd.2) hi blk hrest hm
      left
      omega

theorem calcGo_eq_map : ∀ fuel current e,
    calcGo fuel current e = (availGo fuel current e).map (List.map mkAvailableRecord) := by
  intro fuel
  induction fuel with
  | zero => intro current e; rfl
  | succ fuel ih =>
    intro current e
    rw [calcGo, availGo]
    split_ifs with h
    · cases growBlock current (e - current) with
      | none => rfl
      | some bs =>
        dsimp only
        rw [ih]
        cases availGo fuel (current + bs) e <;> rfl
    · rfl

/-- C6: whenever the free-space partitioner completes on `[s, e)` (emitting
`some blocks` — for start 0 with at least `2 ^ 31` remaining addresses the
source instead panics and emits nothing), every emitted block is a
power-of-two sized block whose base is a multiple of its own size, and it is
the largest aligned power of two fitting the range remaining at its base; the
records of `calculateAvailableSpace` are exactly these blocks rendered by
`mkAvailableRecord`, and `none` (the panic) propagates. -/
theorem partitioner_blocks_maximal_aligned (s e p : Nat) :
    calculateAvailableSpace s e p = (availBlocks s e).map (List.map mkAvailableRecord) ∧
    ∀ blocks, availBlocks s e = some blocks → ∀ blk ∈ blocks,
      (∃ j, blk.2 = 2 ^ j) ∧ blk.1 % blk.2 = 0 ∧
      ∀ m k, m = 2 ^ k → m ≤ e - blk.1 → blk.1 % m = 0 → m ≤ blk.2 :=
  ⟨calcGo_eq_map (e - s) s e,
   fun blocks hb blk hm => availGo_blocks (e - s) s e blocks hb blk hm⟩

/-- Witness for C6: the partitioner on `[4, 16)` completes with the blocks
`(4, 4)` and `(8, 8)`; the first is size 4 = 2 squared, aligned, and maximal
(8 would fit but 4 is not a multiple of 8). -/
theorem partitioner_blocks_maximal_aligned_witness :
    (availBlocks 4 16 = some [(4, 4), (8, 8)]) ∧
    ((4, 4) ∈ [((4 : Nat), (4 : Nat)), (8, 8)]) ∧
    ((∃ j, ((4, 4) : Nat × Nat).2 = 2 ^ j) ∧ ((4, 4) : Nat × Nat).1 % ((4, 4) : Nat × Nat).2 = 0 ∧
     ∀ m k, m = 2 ^ k → m ≤ 16 - ((4, 4) : Nat × Nat).1 →
       ((4, 4) : Nat × Nat).1 % m = 0 → m ≤ ((4, 4) : Nat × Nat).2) :=
  ⟨by decide, by decide,
    (partitioner_blocks_maximal_aligned 4 16 24).2 [(4, 4), (8, 8)] (by decide) (4, 4) (by decide)⟩

/-! ### Lemmas about request resolution, sorting and allocation -/

theorem resolveOne_ok {pp : Nat} {s : Subnet} {r : SubnetReq} (h : resolveOne pp s = .ok r) :
    r.subnet = s ∧ pp ≤ r.prefixLen ∧ r.prefixLen ≤ 32 ∧ r.size = 2 ^ (32 - r.prefixLen) := by
  unfold resolveOne validateReq at h
  split_ifs at h with h1 h2 h3 h4
  · injection h with h'
    subst h'
    refine ⟨rfl, ?_, ?_, rfl⟩ <;> dsimp only <;> omega
  · injection h with h'
    subst h'
    refine ⟨rfl, ?_, ?_, rfl⟩ <;> dsimp only <;> omega

theorem resolveRequirements_ok_mem :
    ∀ (subs : List Subnet) (pp : Nat) (reqs : List SubnetReq),
      resolveRequirements pp subs = .ok reqs →
      ∀ r ∈ reqs, pp ≤ r.prefixLen ∧ r.prefixLen ≤ 32 ∧ r.size = 2 ^ (32 - r.prefixLen) := by
  intro subs
  induction subs with
  | nil =>
    intro pp reqs h r hr
    rw [resolveRequirements] at h
    injection h with h'
    subst h'
    simp at hr
  | cons s rest ih =>
    intro pp reqs h r hr
    rw [resolveRequirements] at h
    cases h1 : resolveOne pp s with
    | error e => rw [h1] at h; exact absurd h (by simp)
    | ok r1 =>
      rw [h1] at h
      cases h2 : resolveRequirements pp rest with
      | error e => rw [h2] at h; exact absurd h (by simp)
      | ok rs =>
        rw [h2] at h
        injection h with h'
        subst h'
        rcases List.mem_cons.mp hr with he | htl
        · subst he
          obtain ⟨-, h5, h6, h7⟩ := resolveOne_ok h1
          exact ⟨h5, h6, h7⟩
        · exact ih pp rs h2 r htl

theorem resolveRequirements_ok_sizes {subs : List Subnet} {pp : Nat} {reqs : List SubnetReq}
    (h : resolveRequirements pp subs = .ok reqs) : ∀ r ∈ reqs, 0 < r.size := by
  intro r hr
  obtain ⟨-, -, hsz⟩ := resolveRequirements_ok_mem subs pp reqs h r hr
  rw [hsz]
  positivity

theorem resolveRequirements_perm :
    ∀ {subs1 subs2 : List Subnet}, subs1.Perm subs2 → ∀ {pp : Nat} {reqs1 : List SubnetReq},
      resolveRequirements pp subs1 = .ok reqs1 →
      ∃ reqs2, resolveRequirements pp subs2 = .ok reqs2 ∧ reqs2.Perm reqs1 := by
  intro subs1 subs2 hperm
  induction hperm with
  | nil =>
    intro pp reqs1 h
    rw [resolveRequirements] at h
    injection h with h'
    subst h'
    exact ⟨[], rfl, List.Perm.refl []⟩
  | cons x p ih =>
    rename_i l1 l2
    intro pp reqs1 h
    rw [resolveRequirements] at h
    cases h1 : resolveOne pp x with
    | error e => rw [h1] at h; exact absurd h (by simp)
    | ok r1 =>
      rw [h1] at h
      cases h2 : resolveRequirements pp l1 with
      | error e => rw [h2] at h; exact absurd h (by simp)
      | ok rs =>
        rw [h2] at h
        injection h with h'
        subst h'
        obtain ⟨rs2, hres2, hperm2⟩ := ih h2
        refine ⟨r1 :: rs2, ?_, hperm2.cons r1⟩
        rw [resolveRequirements, h1, hres2]
  | swap x y l =>
    intro pp reqs1 h
    rw [resolveRequirements] at h
    cases h1 : resolveOne pp y with
    | error e => rw [h1] at h; exact absurd h (by simp)
    | ok ry =>
      rw [h1] at h
      rw [resolveRequirements] at h
      cases h2 : resolveOne pp x with
      | error e => rw [h2] at h; exact absurd h (by simp)
      | ok rx =>
        rw [h2] at h
        cases h3 : resolveRequirements pp l with
        | error e => rw [h3] at h; exact absurd h (by simp)
        | ok rs =>
          rw [h3] at h
          injection h with h'
          subst h'
          refine ⟨rx :: ry :: rs, ?_, List.Perm.swap ry rx rs⟩
          rw [resolveRequirements, h2, resolveRequirements, h1, h3]
  | trans p1 p2 ih1 ih2 =>
    intro pp reqs1 h
    obtain ⟨rs2, hres2, hperm2⟩ := ih1 h
    obtain ⟨rs3, hres3, hperm3⟩ := ih2 hres2
    exact ⟨rs3, hres3, hperm3.trans hperm2⟩

theorem resolveOne_strip_isOk (pp : Nat) (s : Subnet) :
    (resolveOne pp { s with ipAssignments := [] }).isOk = (resolveOne pp s).isOk := by
  have hc : ({ s with ipAssignments := [] } : Subnet).cidr = s.cidr := rfl
  have hh : ({ s with ipAssignments := [] } : Subnet).hosts = s.hosts := rfl
  unfold resolveOne validateReq
  rw [hc, hh]
  split_ifs <;> rfl

theorem resolveRequirements_isOk_all :
    ∀ (subs : List Subnet) (pp : Nat),
      (resolveRequirements pp subs).isOk = subs.all (fun s => (resolveOne pp s).isOk) := by
  intro subs
  induction subs with
  | nil => intro pp; rfl
  | cons s rest ih =>
    intro pp
    rw [resolveRequirements, List.all_cons, ← ih pp]
    cases h1 : resolveOne pp s <;> cases h2 : resolveRequirements pp rest <;>
      simp [Except.isOk, Except.toBool]

theorem resolveRequirements_strip_isOk (subs : List Subnet) (pp : Nat) :
    (resolveRequirements pp (subs.map (fun s => { s with ipAssignments := [] }))).isOk =
    (resolveRequirements pp subs).isOk := by
  rw [resolveRequirements_isOk_all, resolveRequirements_isOk_all, List.all_map]
  congr 1
  funext s
  exact resolveOne_strip_isOk pp s

theorem resolveOne_strip (pp : Nat) (s : Subnet) :
    resolveOne pp { s with ipAssignments := [] } = (resolveOne pp s).map stripReq := by
  have hc : ({ s with ipAssignments := [] } : Subnet).cidr = s.cidr := rfl
  have hh : ({ s with ipAssignments := [] } : Subnet).hosts = s.hosts := rfl
  unfold resolveOne validateReq
  rw [hc, hh]
  split_ifs <;> rfl

theorem resolveRequirements_strip : ∀ (subs : List Subnet) (pp : Nat),
    resolveRequirements pp (subs.map (fun s => { s with ipAssignments := [] })) =
      (resolveRequirements pp subs).map (List.map stripReq) := by
  intro subs
  induction subs with
  | nil => intro pp; rfl
  | cons s rest ih =>
    intro pp
    rw [List.map_cons]
    unfold resolveRequirements
    rw [resolveOne_strip, ih]
    cases resolveOne pp s with
    | error e => rfl
    | ok r =>
      cases resolveRequirements pp rest with
      | error e => rfl
      | ok rs => rfl

theorem orderedInsert_strip (r : SubnetReq) : ∀ l : List SubnetReq,
    List.orderedInsert sizeGE (stripReq r) (l.map stripReq) =
      (List.orderedInsert sizeGE r l).map stripReq := by
  intro l
  induction l with
  | nil => rfl
  | cons a l ih =>
    simp only [List.map_cons, List.orderedInsert,
      show sizeGE (stripReq r) (stripReq a) = sizeGE r a from rfl]
    split_ifs with h
    · rfl
    · rw [List.map_cons, ih]

theorem sortBySizeDesc_strip : ∀ l : List SubnetReq,
    sortBySizeDesc (l.map stripReq) = (sortBySizeDesc l).map stripReq := by
  intro l
  induction l with
  | nil => rfl
  | cons a l ih =>
    unfold sortBySizeDesc at ih ⊢
    rw [List.map_cons, List.insertionSort, List.insertionSort, ih, orderedInsert_strip]

theorem placeCursor_strip : ∀ (l : List SubnetReq) (c : Nat),
    placeCursor (l.map stripReq) c = placeCursor l c := by
  intro l
  induction l with
  | nil => intro c; rfl
  | cons a l ih =>
    intro c
    rw [List.map_cons, placeCursor, placeCursor]
    exact ih _

theorem sortBySizeDesc_perm (l : List SubnetReq) : (sortBySizeDesc l).Perm l :=
  List.perm_insertionSort sizeGE l

theorem sortBySizeDesc_sorted (l : List SubnetReq) :
    List.Pairwise sizeGE (sortBySizeDesc l) :=
  List.sorted_insertionSort sizeGE l

theorem allocateAll_snd : ∀ (l : List SubnetReq) (c : Nat), (allocateAll l c).2 = placeCursor l c := by
  intro l
  induction l with
  | nil => intro c; rfl
  | cons r rest ih => intro c; simp [allocateAll, placeCursor, ih]

theorem placements_chain :
    ∀ (l : List SubnetReq) (c : Nat), (∀ r ∈ l, 0 < r.size) →
      c + (l.map (fun r => r.size)).sum < 2 ^ 32 →
      blocksChain c (placements l c) (placeCursor l c) ∧
      placeCursor l c = c + (l.map (fun r => r.size)).sum := by
  intro l
  induction l with
  | nil =>
    intro c _ _
    simp [placements, placeCursor, blocksChain]
  | cons r rest ih =>
    intro c hpos hfit
    have hr : 0 < r.size := hpos r (List.mem_cons_self r rest)
    rw [List.map_cons, List.sum_cons] at hfit ⊢
    have hmod : (c + r.size) % 2 ^ 32 = c + r.size := Nat.mod_eq_of_lt (by omega)
    obtain ⟨hchain, hcur⟩ := ih (c + r.size)
      (fun q hq => hpos q (List.mem_cons_of_mem r hq)) (by omega)
    rw [placements, placeCursor, hmod]
    refine ⟨⟨rfl, hr, hchain⟩, ?_⟩
    rw [hcur]
    omega

theorem sorted_perm_distinct_eq :
    ∀ (l1 l2 : List SubnetReq), l1.Perm l2 →
      List.Pairwise sizeGE l1 → List.Pairwise sizeGE l2 →
      List.Pairwise (fun a b => a.size ≠ b.size) l1 → l1 = l2 := by
  intro l1
  induction l1 with
  | nil => intro l2 hp _ _ _; exact hp.nil_eq
  | cons a t1 ih =>
    intro l2 hp hs1 hs2 hd1
    cases l2 with
    | nil => exact (List.cons_ne_nil a t1 hp.eq_nil).elim
    | cons b t2 =>
      have hab : a = b := by
        have hain : a ∈ b :: t2 := hp.mem_iff.mp (List.mem_cons_self a t1)
        rcases List.mem_cons.mp hain with he | hat2
        · exact he
        · have hbin : b ∈ a :: t1 := hp.mem_iff.mpr (List.mem_cons_self b t2)
          rcases List.mem_cons.mp hbin with he2 | hbt1
          · exact he2.symm
          · have h1 := (List.pairwise_cons.mp hs1).1 b hbt1
            have h2 := (List.pairwise_cons.mp hs2).1 a hat2
            have h3 := (List.pairwise_cons.mp hd1).1 b hbt1
            exact absurd (Nat.le_antisymm h2 h1) h3
      subst hab
      have hteq := ih t2 hp.cons_inv (List.pairwise_cons.mp hs1).2
        (List.pairwise_cons.mp hs2).2 (List.pairwise_cons.mp hd1).2
      rw [hteq]

/-- C4: counterexample to order-invariance as stated.  The two requests "A"
and "B" resolve to the same block size (/25 inside a /24 parent); swapping
their input order swaps which name is placed at the parent base, so the two
runs produce different output record sequences. -/
theorem permutation_changes_output :
    List.Perm [({ name := "B", cidr := 25 } : Subnet), { name := "A", cidr := 25 }]
      [({ name := "A", cidr := 25 } : Subnet), { name := "B", cidr := 25 }] ∧
    planSingleNetwork { base := 167772160, prefixLen := 24, subnets := [{ name := "B", cidr := 25 }, { name := "A", cidr := 25 }] } ≠
    planSingleNetwork { base := 167772160, prefixLen := 24, subnets := [{ name := "A", cidr := 25 }, { name := "B", cidr := 25 }] } :=
  ⟨by decide, by decide⟩

/-- C4 (amended): planning is invariant under permutations of the request
list whenever the resolved block sizes are pairwise distinct.  (With equal
sizes the stable sort keeps ties in input order, so which name lands at which
base follows the input order and permutations can change the output — see the
counterexample.) -/
theorem plan_permutation_invariant_distinct (n : Network) (subs2 : List Subnet)
    (reqs : List SubnetReq) (hperm : subs2.Perm n.subnets)
    (hres : resolveRequirements n.prefixLen n.subnets = .ok reqs)
    (hdist : List.Pairwise (fun a b => a.size ≠ b.size) reqs) :
    planSingleNetwork { n with subnets := subs2 } = planSingleNetwork n := by
  obtain ⟨reqs2, hres2, hperm2⟩ := resolveRequirements_perm hperm.symm hres
  have hsorteq : sortBySizeDesc reqs2 = sortBySizeDesc reqs := by
    apply sorted_perm_distinct_eq
    · exact (sortBySizeDesc_perm reqs2).trans (hperm2.trans (sortBySizeDesc_perm reqs).symm)
    · exact sortBySizeDesc_sorted reqs2
    · exact sortBySizeDesc_sorted reqs
    · exact (((sortBySizeDesc_perm reqs2).trans hperm2).pairwise_iff
        (fun hxy => fun he => hxy he.symm)).mpr hdist
  unfold planSingleNetwork
  dsimp only
  simp only [hres, hres2]
  rw [hsorteq]

/-- Witness for C4 (amended): a /25 and a /26 request (distinct sizes) on a
/24 parent; swapping them leaves the plan unchanged. -/
theorem plan_permutation_invariant_distinct_witness :
    List.Perm [({ name := "B", cidr := 26 } : Subnet), { name := "A", cidr := 25 }]
      [({ name := "A", cidr := 25 } : Subnet), { name := "B", cidr := 26 }] ∧
    resolveRequirements 24 [({ name := "A", cidr := 25 } : Subnet), { name := "B", cidr := 26 }] =
      .ok [{ subnet := { name := "A", cidr := 25 }, prefixLen := 25, size := 128 }, { subnet := { name := "B", cidr := 26 }, prefixLen := 26, size := 64 }] ∧
    List.Pairwise (fun a b : SubnetReq => a.size ≠ b.size)
      [{ subnet := { name := "A", cidr := 25 }, prefixLen := 25, size := 128 }, { subnet := { name := "B", cidr := 26 }, prefixLen := 26, size := 64 }] ∧
    planSingleNetwork { base := 167772160, prefixLen := 24, subnets := [{ name := "B", cidr := 26 }, { name := "A", cidr := 25 }] } =
    planSingleNetwork { base := 167772160, prefixLen := 24, subnets := [{ name := "A", cidr := 25 }, { name := "B", cidr := 26 }] } :=
  ⟨by decide, by decide, by decide,
    plan_permutation_invariant_distinct
      { base := 167772160, prefixLen := 24, subnets := [{ name := "A", cidr := 25 }, { name := "B", cidr := 26 }] }
      [{ name := "B", cidr := 26 }, { name := "A", cidr := 25 }]
      [{ subnet := { name := "A", cidr := 25 }, prefixLen := 25, size := 128 }, { subnet := { name := "B", cidr := 26 }, prefixLen := 26, size := 64 }]
      (by decide) (by decide) (by decide)⟩

/-- C2: counterexample to exact tiling as stated.  The parent
`255.255.255.0/24` is the topmost /24: its end address wraps to 0 in `uint32`
arithmetic, the leftover check `currentIP < parentEnd` fails, and the run
emits no records at all, so no set of emitted ranges can tile the 256-address
parent interval. -/
theorem topParent_tiling_fails :
    planSingleNetwork { base := 4294967040, prefixLen := 24, subnets := [] } = .ok [] ∧
    ¬ tiles 4294967040 (4294967040 + 2 ^ (32 - 24)) [] := by
  constructor
  · decide
  · intro ht
    obtain ⟨hcov, -⟩ := ht
    obtain ⟨blk, hm, -⟩ := (hcov 4294967040).mp ⟨Nat.le_refl _, by decide⟩
    exact absurd hm (List.not_mem_nil blk)

/-- C2 (amended): for every parent whose block does not abut the top of the
address space (`parentBase + 2 ^ (32 - prefixLen) < 2 ^ 32`; topmost parents,
including /0, wrap `parentEnd` to 0 and emit nothing — see the
counterexample), if all requests resolve, their block sizes sum to at most
the parent size, and the run does not hit the partitioner's division-by-zero
panic (which requires the leftover range to start at address 0 and reach
`2 ^ 31`, e.g. parent 0.0.0.0/1 with no requests), then planning succeeds,
the partitioner completes with `some blocks`, and the placed subnet ranges
together with those blocks exactly tile the parent interval: they cover it
and are pairwise disjoint. -/
theorem plan_tiles_parent (n : Network) (reqs : List SubnetReq)
    (hres : resolveRequirements n.prefixLen n.subnets = .ok reqs)
    (hend : maskAddr n.base n.prefixLen + 2 ^ (32 - n.prefixLen) < 2 ^ 32)
    (hsum : (reqs.map (fun r => r.size)).sum ≤ 2 ^ (32 - n.prefixLen))
    (hsafe : (allocateAll (sortBySizeDesc reqs) (maskAddr n.base n.prefixLen)).2 = 0 →
      maskAddr n.base n.prefixLen + 2 ^ (32 - n.prefixLen) < 2 ^ 31) :
    (planSingleNetwork n).isOk = true ∧
    ∃ blocks,
      availBlocks (allocateAll (sortBySizeDesc reqs) (maskAddr n.base n.prefixLen)).2
        (maskAddr n.base n.prefixLen + 2 ^ (32 - n.prefixLen)) = some blocks ∧
      tiles (maskAddr n.base n.prefixLen)
        (maskAddr n.base n.prefixLen + 2 ^ (32 - n.prefixLen))
        (placements (sortBySizeDesc reqs) (maskAddr n.base n.prefixLen) ++ blocks) := by
  have hsizes : ∀ r ∈ sortBySizeDesc reqs, 0 < r.size := fun r hr =>
    resolveRequirements_ok_sizes hres r ((sortBySizeDesc_perm reqs).mem_iff.mp hr)
  have hsum' : ((sortBySizeDesc reqs).map (fun r => r.size)).sum =
      (reqs.map (fun r => r.size)).sum := ((sortBySizeDesc_perm reqs).map _).sum_eq
  have hfit : maskAddr n.base n.prefixLen +
      ((sortBySizeDesc reqs).map (fun r => r.size)).sum < 2 ^ 32 := by
    rw [hsum']; omega
  obtain ⟨hchain, hcur⟩ := placements_chain (sortBySizeDesc reqs)
    (maskAddr n.base n.prefixLen) hsizes hfit
  have hallocsnd := allocateAll_snd (sortBySizeDesc reqs) (maskAddr n.base n.prefixLen)
  have hcurE : (allocateAll (sortBySizeDesc reqs) (maskAddr n.base n.prefixLen)).2 ≤
      maskAddr n.base n.prefixLen + 2 ^ (32 - n.prefixLen) := by
    rw [hallocsnd, hcur, hsum']; omega
  obtain ⟨blocks, hblocks, hchain2⟩ := availGo_chain
    ((maskAddr n.base n.prefixLen + 2 ^ (32 - n.prefixLen)) -
      (allocateAll (sortBySizeDesc reqs) (maskAddr n.base n.prefixLen)).2)
    (allocateAll (sortBySizeDesc reqs) (maskAddr n.base n.prefixLen)).2
    (maskAddr n.base n.prefixLen + 2 ^ (32 - n.prefixLen))
    hcurE (Nat.le_refl _) hend
    (by intro hcp; have := hsafe hcp.1; omega)
  have hmod1 : 2 ^ (32 - n.prefixLen) % 2 ^ 32 = 2 ^ (32 - n.prefixLen) :=
    Nat.mod_eq_of_lt (by omega)
  have hmod2 : (maskAddr n.base n.prefixLen + 2 ^ (32 - n.prefixLen)) % 2 ^ 32 =
      maskAddr n.base n.prefixLen + 2 ^ (32 - n.prefixLen) := Nat.mod_eq_of_lt hend
  have hcalc : calculateAvailableSpace
      (allocateAll (sortBySizeDesc reqs) (maskAddr n.base n.prefixLen)).2
      (maskAddr n.base n.prefixLen + 2 ^ (32 - n.prefixLen)) n.prefixLen =
      some (blocks.map mkAvailableRecord) := by
    unfold calculateAvailableSpace
    rw [calcGo_eq_map, hblocks]
    rfl
  constructor
  · unfold planSingleNetwork
    dsimp only
    rw [hres]
    dsimp only
    rw [hmod1, hmod2]
    split_ifs with hif
    · rw [hcalc]
      rfl
    · rfl
  · refine ⟨blocks, hblocks, ?_⟩
    refine blocksChain_tiles _ _ _ ?_
    refine blocksChain_append _ _ _ _ _ hchain ?_
    rw [hallocsnd] at hchain2
    exact hchain2

/-- Witness for C2 (amended): one /25 request inside `10.0.0.0/24` (the
cursor ends at 10.0.0.128, away from the panic corner). -/
theorem plan_tiles_parent_witness :
    resolveRequirements 24 [({ name := "W", cidr := 25 } : Subnet)] =
      .ok [{ subnet := { name := "W", cidr := 25 }, prefixLen := 25, size := 128 }] ∧
    maskAddr 167772160 24 + 2 ^ (32 - 24) < 2 ^ 32 ∧
    (([({ subnet := { name := "W", cidr := 25 }, prefixLen := 25, size := 128 } : SubnetReq)].map (fun r => r.size)).sum ≤ 2 ^ (32 - 24)) ∧
    ((allocateAll (sortBySizeDesc [{ subnet := { name := "W", cidr := 25 }, prefixLen := 25, size := 128 }]) (maskAddr 167772160 24)).2 = 0 →
      maskAddr 167772160 24 + 2 ^ (32 - 24) < 2 ^ 31) ∧
    ((planSingleNetwork { base := 167772160, prefixLen := 24, subnets := [{ name := "W", cidr := 25 }] }).isOk = true ∧
     ∃ blocks,
       availBlocks (allocateAll (sortBySizeDesc [{ subnet := { name := "W", cidr := 25 }, prefixLen := 25, size := 128 }]) (maskAddr 167772160 24)).2
         (maskAddr 167772160 24 + 2 ^ (32 - 24)) = some blocks ∧
       tiles (maskAddr 167772160 24) (maskAddr 167772160 24 + 2 ^ (32 - 24))
         (placements (sortBySizeDesc [{ subnet := { name := "W", cidr := 25 }, prefixLen := 25, size := 128 }]) (maskAddr 167772160 24) ++ blocks)) :=
  ⟨by decide, by decide, by decide, by decide,
    plan_tiles_parent { base := 167772160, prefixLen := 24, subnets := [{ name := "W", cidr := 25 }] }
      [{ subnet := { name := "W", cidr := 25 }, prefixLen := 25, size := 128 }]
      (by decide) (by decide) (by decide) (by decide)⟩

/-- C8: counterexample as stated.  For the /0 parent with no requests the
cursor (0) is strictly below the exact end `0 + 2 ^ 32`, yet the run appends
no Available records at all: `uint32(1 << 32)` wraps the parent size to 0, so
`parentEnd` is 0 and the leftover check fails. -/
theorem slashZero_no_leftover_records :
    planSingleNetwork { base := 0, prefixLen := 0, subnets := [] } = .ok [] ∧
    (0 : Nat) < 0 + 2 ^ (32 - 0) :=
  ⟨by decide, by decide⟩

/-- C8 (amended): for every parent that does not abut the top of the address
space (topmost parents, including /0, wrap `parentEnd` to 0 in `uint32`
arithmetic and emit nothing — see the counterexample), whenever the cursor
after allocation is strictly below the parent end and the run does not hit
the partitioner's division-by-zero panic (which requires the leftover range
to start at address 0 and reach `2 ^ 31`, e.g. parent 0.0.0.0/1 with no
requests), the partitioner completes with `some blocks`, the corresponding
Available records over `[cursor, parentEnd)` are appended, and the blocks
exactly tile that remaining interval. -/
theorem leftover_appended_below_top (n : Network) (reqs : List SubnetReq)
    (hres : resolveRequirements n.prefixLen n.subnets = .ok reqs)
    (hend : maskAddr n.base n.prefixLen + 2 ^ (32 - n.prefixLen) < 2 ^ 32)
    (hcur : (allocateAll (sortBySizeDesc reqs) (maskAddr n.base n.prefixLen)).2 <
      maskAddr n.base n.prefixLen + 2 ^ (32 - n.prefixLen))
    (hsafe : (allocateAll (sortBySizeDesc reqs) (maskAddr n.base n.prefixLen)).2 = 0 →
      maskAddr n.base n.prefixLen + 2 ^ (32 - n.prefixLen) < 2 ^ 31) :
    ∃ blocks,
      availBlocks (allocateAll (sortBySizeDesc reqs) (maskAddr n.base n.prefixLen)).2
        (maskAddr n.base n.prefixLen + 2 ^ (32 - n.prefixLen)) = some blocks ∧
      calculateAvailableSpace (allocateAll (sortBySizeDesc reqs) (maskAddr n.base n.prefixLen)).2
        (maskAddr n.base n.prefixLen + 2 ^ (32 - n.prefixLen)) n.prefixLen =
        some (blocks.map mkAvailableRecord) ∧
      planSingleNetwork n = .ok
        ((allocateAll (sortBySizeDesc reqs) (maskAddr n.base n.prefixLen)).1 ++
         blocks.map mkAvailableRecord) ∧
      tiles (allocateAll (sortBySizeDesc reqs) (maskAddr n.base n.prefixLen)).2
        (maskAddr n.base n.prefixLen + 2 ^ (32 - n.prefixLen)) blocks := by
  have hmod1 : 2 ^ (32 - n.prefixLen) % 2 ^ 32 = 2 ^ (32 - n.prefixLen) :=
    Nat.mod_eq_of_lt (by omega)
  have hmod2 : (maskAddr n.base n.prefixLen + 2 ^ (32 - n.prefixLen)) % 2 ^ 32 =
      maskAddr n.base n.prefixLen + 2 ^ (32 - n.prefixLen) := Nat.mod_eq_of_lt hend
  obtain ⟨blocks, hblocks, hchain⟩ := availGo_chain
    ((maskAddr n.base n.prefixLen + 2 ^ (32 - n.prefixLen)) -
      (allocateAll (sortBySizeDesc reqs) (maskAddr n.base n.prefixLen)).2)
    (allocateAll (sortBySizeDesc reqs) (maskAddr n.base n.prefixLen)).2
    (maskAddr n.base n.prefixLen + 2 ^ (32 - n.prefixLen))
    (Nat.le_of_lt hcur) (Nat.le_refl _) hend
    (by intro hcp; have := hsafe hcp.1; omega)
  have hcalc : calculateAvailableSpace
      (allocateAll (sortBySizeDesc reqs) (maskAddr n.base n.prefixLen)).2
      (maskAddr n.base n.prefixLen + 2 ^ (32 - n.prefixLen)) n.prefixLen =
      some (blocks.map mkAvailableRecord) := by
    unfold calculateAvailableSpace
    rw [calcGo_eq_map, hblocks]
    rfl
  refine ⟨blocks, hblocks, hcalc, ?_, blocksChain_tiles _ _ _ hchain⟩
  unfold planSingleNetwork
  dsimp only
  rw [hres]
  dsimp only
  rw [hmod1, hmod2, if_pos hcur, hcalc]

/-- Witness for C8 (amended): one /26 request inside `10.0.0.0/24` leaves
three quarters of the parent to the partitioner. -/
theorem leftover_appended_below_top_witness :
    resolveRequirements 24 [({ name := "V", cidr := 26 } : Subnet)] =
      .ok [{ subnet := { name := "V", cidr := 26 }, prefixLen := 26, size := 64 }] ∧
    maskAddr 167772160 24 + 2 ^ (32 - 24) < 2 ^ 32 ∧
    (allocateAll (sortBySizeDesc [{ subnet := { name := "V", cidr := 26 }, prefixLen := 26, size := 64 }]) (maskAddr 167772160 24)).2 <
      maskAddr 167772160 24 + 2 ^ (32 - 24) ∧
    ((allocateAll (sortBySizeDesc [{ subnet := { name := "V", cidr := 26 }, prefixLen := 26, size := 64 }]) (maskAddr 167772160 24)).2 = 0 →
      maskAddr 167772160 24 + 2 ^ (32 - 24) < 2 ^ 31) ∧
    ∃ blocks,
      availBlocks (allocateAll (sortBySizeDesc [{ subnet := { name := "V", cidr := 26 }, prefixLen := 26, size := 64 }]) (maskAddr 167772160 24)).2
        (maskAddr 167772160 24 + 2 ^ (32 - 24)) = some blocks ∧
      calculateAvailableSpace (allocateAll (sortBySizeDesc [{ subnet := { name := "V", cidr := 26 }, prefixLen := 26, size := 64 }]) (maskAddr 167772160 24)).2
        (maskAddr 167772160 24 + 2 ^ (32 - 24)) 24 = some (blocks.map mkAvailableRecord) ∧
      planSingleNetwork { base := 167772160, prefixLen := 24, subnets := [{ name := "V", cidr := 26 }] } = .ok
        ((allocateAll (sortBySizeDesc [{ subnet := { name := "V", cidr := 26 }, prefixLen := 26, size := 64 }]) (maskAddr 167772160 24)).1 ++
         blocks.map mkAvailableRecord) ∧
      tiles (allocateAll (sortBySizeDesc [{ subnet := { name := "V", cidr := 26 }, prefixLen := 26, size := 64 }]) (maskAddr 167772160 24)).2
        (maskAddr 167772160 24 + 2 ^ (32 - 24)) blocks :=
  ⟨by decide, by decide, by decide, by decide,
    leftover_appended_below_top { base := 167772160, prefixLen := 24, subnets := [{ name := "V", cidr := 26 }] }
      [{ subnet := { name := "V", cidr := 26 }, prefixLen := 26, size := 64 }]
      (by decide) (by decide) (by decide) (by decide)⟩

/-- Witness for C3 at the spec's own scenario (`hosts = 50` resolving
to a /26). -/
theorem hostsPrefixLen_minimal_witness :
    1 ≤ 50 ∧
    ((1 ≤ calculatePrefixFromHosts 50 ∧ calculatePrefixFromHosts 50 ≤ 30) ∧
    ((calculatePrefixFromHosts 50 : Int) = max 1 (min 30 (32 - (ceilLog2 (50 + 2) : Int)))) ∧
    (ceilLog2 (50 + 2) ≤ 31 →
      50 + 2 ≤ 2 ^ (32 - calculatePrefixFromHosts 50) ∧
      ∀ q, calculatePrefixFromHosts 50 < q → 2 ^ (32 - q) < 50 + 2)) :=
  ⟨by decide, hostsPrefixLen_minimal 50 (by decide)⟩

/-! ### Lemmas about the expander's record categories -/

theorem scanStep_categories (s : Subnet) (cp : Nat × Nat) (networkInt : Nat)
    (used : Nat → Bool) (st : List SubnetResult × Option Nat) (i : Nat)
    (h : ∀ r ∈ st.1, r.category = "Unused") :
    ∀ r ∈ (scanStep s cp networkInt used st i).1, r.category = "Unused" := by
  intro r hr
  unfold scanStep at hr
  split_ifs at hr with hc
  · cases hst : st.2 with
    | some first => rw [hst] at hr; exact h r hr
    | none => rw [hst] at hr; exact h r hr
  · cases hst : st.2 with
    | some first =>
      rw [hst] at hr
      rcases List.mem_append.mp hr with hl | hsing
      · exact h r hl
      · rw [List.mem_singleton.mp hsing]; rfl
    | none => rw [hst] at hr; exact h r hr

theorem scanFold_categories (s : Subnet) (cp : Nat × Nat) (networkInt : Nat)
    (used : Nat → Bool) :
    ∀ (l : List Nat) (st : List SubnetResult × Option Nat),
      (∀ r ∈ st.1, r.category = "Unused") →
      ∀ r ∈ (l.foldl (scanStep s cp networkInt used) st).1, r.category = "Unused" := by
  intro l
  induction l with
  | nil => intro st h; simpa using h
  | cons i rest ih =>
    intro st h
    rw [List.foldl_cons]
    exact ih _ (scanStep_categories s cp networkInt used st i h)

theorem scanUnused_categories (s : Subnet) (cp : Nat × Nat) (networkInt totalIPs : Nat)
    (used : Nat → Bool) :
    ∀ r ∈ scanUnused s cp networkInt totalIPs used, r.category = "Unused" := by
  intro r hr
  unfold scanUnused at hr
  dsimp only at hr
  have hfold := scanFold_categories s cp networkInt used (List.range' 1 (totalIPs - 2))
    ([], none) (by simp)
  cases hfin : ((List.range' 1 (totalIPs - 2)).foldl (scanStep s cp networkInt used)
      ([], none)).2 with
  | some first =>
    rw [hfin] at hr
    rcases List.mem_append.mp hr with hl | hsing
    · exact hfold r hl
    · rw [List.mem_singleton.mp hsing]; rfl
  | none =>
    rw [hfin] at hr
    exact hfold r hr

theorem unusedAndBroadcastRecords_categories (s : Subnet) (cp : Nat × Nat)
    (networkInt totalIPs : Nat) (sorted : List IPAssignment) :
    ∀ r ∈ unusedAndBroadcastRecords s cp networkInt totalIPs sorted,
      r.category = "Unused" ∨ r.category = "Broadcast" := by
  intro r hr
  unfold unusedAndBroadcastRecords at hr
  dsimp only at hr
  rcases List.mem_append.mp hr with hl | hsing
  · exact Or.inl (scanUnused_categories s cp networkInt totalIPs _ r hl)
  · rw [List.mem_singleton.mp hsing]; exact Or.inr rfl

theorem filter_assignment_map_length (s : Subnet) (cp : Nat × Nat)
    (networkInt totalIPs : Nat) :
    ∀ (l : List IPAssignment),
      ((l.map (mkAssignmentRecord s cp networkInt totalIPs)).filter
        (fun r => r.category == "Assignment")).length = l.length := by
  intro l
  induction l with
  | nil => rfl
  | cons a rest ih =>
    rw [List.map_cons, List.filter_cons]
    have hc : ((mkAssignmentRecord s cp networkInt totalIPs a).category ==
        "Assignment") = true := rfl
    rw [hc]
    simp only [if_pos trivial, List.length_cons, ih]

/-- C1: evaluation of the model at an over-capacity input.  The parent
`10.0.0.0/24` holds 256 addresses; its three /25 requests are each
individually valid but need 384 addresses in total.  The source has no
total-capacity check, so planning succeeds and places subnet "Z" with base
`10.0.1.0`, at or beyond the parent's end address `10.0.1.0`. -/
theorem overCapacity_placesOutsideParent :
    (planSingleNetwork { base := 167772160, prefixLen := 24, subnets := [{ name := "X", cidr := 25 }, { name := "Y", cidr := 25 }, { name := "Z", cidr := 25 }] }).isOk = true ∧
    ∃ r ∈ (planSingleNetwork { base := 167772160, prefixLen := 24, subnets := [{ name := "X", cidr := 25 }, { name := "Y", cidr := 25 }, { name := "Z", cidr := 25 }] }).toOption.getD [],
      r.name = "Z" ∧ r.category = "Network" ∧ maskAddr 167772160 24 + 2 ^ (32 - 24) ≤ r.subnet.1 :=
  ⟨by decide, by decide⟩

/-- C7: counterexample.  A /32 subnet at `10.0.0.5` with assignments at
positions 1 and 0: the Network record and the position-0 assignment both
resolve to the base `10.0.0.5`, but the position-1 assignment resolves to
`10.0.0.6`, one past the /32's single address — not to the base as claimed. -/
theorem slash32_position_one_not_base :
    (processIPAssignments { name := "H", cidr := 32, ipAssignments := [{ name := "x", position := 1 }, { name := "z", position := 0 }] } (167772165, 32)).map (fun r => r.ip) =
      [IPField.single 167772165, IPField.single 167772165, IPField.single 167772166] ∧
    (167772166 : Nat) ≠ 167772165 :=
  ⟨by decide, by decide⟩

/-- C7 (amended): for every /32 subnet with IP assignments, an assignment at
position 0 and an assignment at any negative position are legal and resolve
to the subnet's base address; an assignment at a positive position `N`
(including 1) is also legal but resolves to `base + N` (mod `2 ^ 32`), one or
more past the /32's single address.  The emitted addresses are exactly the
Network record's base followed by each assignment's resolved address in
ascending position order. -/
theorem slash32_positions_resolve (s : Subnet) (rawBase : Nat) :
    (processIPAssignments s (rawBase, 32)).map (fun r => r.ip) =
      IPField.single (maskAddr rawBase 32) ::
        (sortAssignments s.ipAssignments).map (fun a =>
          IPField.single (if a.position ≤ 0 then maskAddr rawBase 32
            else (maskAddr rawBase 32 + u32ofInt a.position) % 2 ^ 32)) := by
  unfold processIPAssignments
  dsimp only
  rw [if_neg (by omega)]
  rw [List.append_nil, List.map_cons, List.map_map]
  have hnet : (networkRecord s (rawBase, 32) (maskAddr rawBase 32)).ip =
      IPField.single (maskAddr rawBase 32) := rfl
  rw [hnet]
  congr 1
  apply List.map_congr_left
  intro a ha
  show (mkAssignmentRecord s (rawBase, 32) (maskAddr rawBase 32) (2 ^ (32 - 32)) a).ip = _
  unfold mkAssignmentRecord resolveAssignPos
  dsimp only
  by_cases hneg : a.position < 0
  · rw [if_pos hneg, if_pos rfl, if_pos (by omega : a.position ≤ 0)]
  · by_cases hzero : a.position = 0
    · rw [if_neg hneg, if_pos hzero, if_pos (by omega : a.position ≤ 0)]
    · rw [if_neg hneg, if_neg hzero, if_neg (by omega : ¬a.position ≤ 0)]

/-- C9: IP assignment positions are never range-validated.
`processIPAssignments` is a total function that emits exactly one record of
category "Assignment" per assignment entry, whatever the positions are; and
planning succeeds or fails independently of the assignments: stripping every
assignment from a network leaves the success of `planSingleNetwork`
unchanged, so planning never fails because of an assignment position. -/
theorem assignments_never_validated :
    (∀ (s : Subnet) (cp : Nat × Nat),
      ((processIPAssignments s cp).filter (fun r => r.category == "Assignment")).length =
        s.ipAssignments.length) ∧
    (∀ n : Network, (planSingleNetwork (stripAssignments n)).isOk = (planSingleNetwork n).isOk) := by
  constructor
  · intro s cp
    unfold processIPAssignments
    dsimp only
    rw [List.filter_cons]
    have hnet : ((networkRecord s cp (maskAddr cp.1 cp.2)).category == "Assignment") = false := rfl
    rw [hnet, if_neg Bool.false_ne_true]
    rw [List.filter_append, List.length_append]
    have h2 : ((if cp.2 < 31 then
        unusedAndBroadcastRecords s cp (maskAddr cp.1 cp.2) (2 ^ (32 - cp.2))
          (sortAssignments s.ipAssignments) else []).filter
        (fun r => r.category == "Assignment")) = [] := by
      split_ifs with hp
      · rw [List.filter_eq_nil_iff]
        intro r hr
        rcases unusedAndBroadcastRecords_categories s cp _ _ _ r hr with hcat | hcat <;>
          simp [hcat]
      · rfl
    rw [h2]
    simp only [List.length_nil, Nat.add_zero]
    rw [filter_assignment_map_length]
    exact (List.perm_insertionSort posLE s.ipAssignments).length_eq
  · intro n
    have hstrip := resolveRequirements_strip n.subnets n.prefixLen
    unfold planSingleNetwork stripAssignments
    dsimp only
    rw [hstrip]
    cases h2 : resolveRequirements n.prefixLen n.subnets with
    | error e => rfl
    | ok r2 =>
      dsimp only [Except.map]
      rw [sortBySizeDesc_strip, allocateAll_snd, allocateAll_snd, placeCursor_strip]
      split_ifs with h
      · cases hc : calculateAvailableSpace
            (placeCursor (sortBySizeDesc r2) (maskAddr n.base n.prefixLen))
            ((maskAddr n.base n.prefixLen + 2 ^ (32 - n.prefixLen) % 2 ^ 32) % 2 ^ 32)
            n.prefixLen with
        | none => rfl
        | some av => rfl
      · rfl

/-- C10: for a subnet of prefix length 31 or 32 with at least one IP
assignment, the expander's output is exactly one Network record followed by
one Assignment record per assignment in ascending position order, and every
record is of category "Network" or "Assignment" — no Unused, no Unused Range
and no Broadcast record is emitted: the gap scan and the broadcast emission
run only for prefix lengths strictly below 31. -/
theorem tinyPrefixLen_structure (s : Subnet) (rawBase p : Nat)
    (hp : p = 31 ∨ p = 32) (_hne : s.ipAssignments ≠ []) :
    processIPAssignments s (rawBase, p) =
      networkRecord s (rawBase, p) (maskAddr rawBase p) ::
        (sortAssignments s.ipAssignments).map
          (mkAssignmentRecord s (rawBase, p) (maskAddr rawBase p) (2 ^ (32 - p))) ∧
    (sortAssignments s.ipAssignments).Perm s.ipAssignments ∧
    List.Pairwise posLE (sortAssignments s.ipAssignments) ∧
    ∀ r ∈ processIPAssignments s (rawBase, p),
      r.category = "Network" ∨ r.category = "Assignment" := by
  have hlt : ¬((rawBase, p).2 < 31) := by
    rcases hp with h | h <;> simp [h]
  have hstruct : processIPAssignments s (rawBase, p) =
      networkRecord s (rawBase, p) (maskAddr rawBase p) ::
        (sortAssignments s.ipAssignments).map
          (mkAssignmentRecord s (rawBase, p) (maskAddr rawBase p) (2 ^ (32 - p))) := by
    unfold processIPAssignments
    dsimp only
    rw [if_neg hlt, List.append_nil]
  refine ⟨hstruct, List.perm_insertionSort posLE s.ipAssignments,
    List.sorted_insertionSort posLE s.ipAssignments, ?_⟩
  intro r hr
  rw [hstruct] at hr
  rcases List.mem_cons.mp hr with he | hm
  · rw [he]; exact Or.inl rfl
  · obtain ⟨a, -, hmk⟩ := List.mem_map.mp hm
    rw [← hmk]; exact Or.inr rfl

/-- Witness for C10: a /31 subnet with two assignments given in descending
position order. -/
theorem tinyPrefixLen_structure_witness :
    ((31 : Nat) = 31 ∨ (31 : Nat) = 32) ∧
    ([({ name := "a", position := 1 } : IPAssignment), { name := "b", position := 0 }] ≠ []) ∧
    (processIPAssignments { name := "P", cidr := 31, ipAssignments := [{ name := "a", position := 1 }, { name := "b", position := 0 }] } (0, 31) =
      networkRecord { name := "P", cidr := 31, ipAssignments := [{ name := "a", position := 1 }, { name := "b", position := 0 }] } (0, 31) (maskAddr 0 31) ::
        (sortAssignments [{ name := "a", position := 1 }, { name := "b", position := 0 }]).map
          (mkAssignmentRecord { name := "P", cidr := 31, ipAssignments := [{ name := "a", position := 1 }, { name := "b", position := 0 }] } (0, 31) (maskAddr 0 31) (2 ^ (32 - 31))) ∧
     (sortAssignments [({ name := "a", position := 1 } : IPAssignment), { name := "b", position := 0 }]).Perm
       [({ name := "a", position := 1 } : IPAssignment), { name := "b", position := 0 }] ∧
     List.Pairwise posLE (sortAssignments [({ name := "a", position := 1 } : IPAssignment), { name := "b", position := 0 }]) ∧
     ∀ r ∈ processIPAssignments { name := "P", cidr := 31, ipAssignments := [{ name := "a", position := 1 }, { name := "b", position := 0 }] } (0, 31),
       r.category = "Network" ∨ r.category = "Assignment") :=
  ⟨by decide, by decide,
    tinyPrefixLen_structure
      { name := "P", cidr := 31, ipAssignments := [{ name := "a", position := 1 }, { name := "b", position := 0 }] }
      0 31 (by decide) (by decide)⟩

end IPSubnetPlanner
